import Mathlib

/-!
Verification of the chunking and relevance-ranking engine of the
`another_documents_chat_ai` repository
(`web/app/utils/text_processing.py` and `web/app/services/chunking_service.py`).

Strings are embedded as `List Char` (`Str`); Python's whitespace handling is
modelled over the ASCII whitespace characters; relevance scores (Python floats
built from small decimal literals and divisions) are embedded as exact
rational values (`Score`, unreduced integer fractions), the standard
idealisation of the scorer's float arithmetic.  Python sets are embedded as
duplicate-free lists; all quantities the scorer derives from them are
independent of enumeration order.  Dictionaries keep Python's
insertion-iteration order and are embedded as association lists.
-/

abbrev Str := List Char

theorem length_dropWhile_le {α : Type} (p : α → Bool) (l : List α) :
    (l.dropWhile p).length ≤ l.length :=
  (List.dropWhile_sublist (p := p) (l := l)).length_le

/-- ASCII whitespace, as recognised by Python's `str.split()` / `str.strip()`
and the regex class `\s`. -/
def pyIsSpace (c : Char) : Bool :=
  c == ' ' || c == '\t' || c == '\n' || c == '\r' || c == '\x0b' || c == '\x0c'

/-- Accumulator worker for `pySplitWs`: `acc` is the reversed word currently
being read. -/
def pySplitWsAux : Str → Str → List Str
  | [], acc => if acc = [] then [] else [acc.reverse]
  | c :: cs, acc =>
    if pyIsSpace c then
      (if acc = [] then [] else [acc.reverse]) ++ pySplitWsAux cs []
    else pySplitWsAux cs (c :: acc)

/-- Python `text.split()` (no separator): split on runs of whitespace,
discarding empty pieces. -/
def pySplitWs (s : Str) : List Str := pySplitWsAux s []

/-- Python `s.strip()` on a general character predicate: drop matching
characters from the front, then from the back. -/
def pyStripP (p : Char → Bool) (s : Str) : Str :=
  ((s.dropWhile p).reverse.dropWhile p).reverse

/-- Python `s.strip()` (whitespace). -/
def pyStrip (s : Str) : Str := pyStripP pyIsSpace s

/-- Python `content.split('\n\n')`: split on each leftmost occurrence of the
two-character separator; empty pieces are kept. -/
def splitParas : Str → List Str
  | [] => [[]]
  | '\n' :: '\n' :: cs => [] :: splitParas cs
  | c :: cs =>
    match splitParas cs with
    | [] => [[c]]
    | p :: ps => (c :: p) :: ps

/-- The character class `[.!?]` of the sentence-splitting regex. -/
def isSentPunct (c : Char) : Bool := c == '.' || c == '!' || c == '?'

/-- Leftmost match of the regex `[.!?]+\s+` in a string: returns
`(text before the match, matched delimiter, text after the match)`.
A match starts at a run of `.!?` characters only when that run is immediately
followed by at least one whitespace character (both runs taken greedily). -/
def findSentMatch : Str → Option (Str × Str × Str)
  | [] => none
  | c :: cs =>
    if isSentPunct c then
      let ps := (c :: cs).takeWhile isSentPunct
      let rest1 := (c :: cs).dropWhile isSentPunct
      let ws := rest1.takeWhile pyIsSpace
      if ws ≠ [] then some ([], ps ++ ws, rest1.dropWhile pyIsSpace)
      else
        match findSentMatch cs with
        | none => none
        | some (pre, d, r) => some (c :: pre, d, r)
    else
      match findSentMatch cs with
      | none => none
      | some (pre, d, r) => some (c :: pre, d, r)

theorem findSentMatch_shrink :
    ∀ (s pre d r : Str), findSentMatch s = some (pre, d, r) → r.length < s.length := by
  intro s
  induction s with
  | nil => intro pre d r h; simp [findSentMatch] at h
  | cons c cs ih =>
    intro pre d r h
    simp only [findSentMatch] at h
    split at h
    · split at h
      · simp only [Option.some.injEq, Prod.mk.injEq] at h
        obtain ⟨-, -, hr⟩ := h
        have h2 := length_dropWhile_le isSentPunct cs
        have h3 := length_dropWhile_le pyIsSpace ((c :: cs).dropWhile isSentPunct)
        have h1 : (c :: cs).dropWhile isSentPunct = cs.dropWhile isSentPunct := by
          simp_all [List.dropWhile_cons]
        rw [h1] at h3
        subst hr
        rw [h1]
        simp only [List.length_cons]
        omega
      · cases hm : findSentMatch cs with
        | none => rw [hm] at h; simp at h
        | some v =>
          obtain ⟨pre1, d1, r1⟩ := v
          rw [hm] at h
          simp only [Option.some.injEq, Prod.mk.injEq] at h
          obtain ⟨-, -, hr⟩ := h
          have hlt := ih pre1 d1 r1 hm
          subst hr
          simp only [List.length_cons]
          omega
    · cases hm : findSentMatch cs with
      | none => rw [hm] at h; simp at h
      | some v =>
        obtain ⟨pre1, d1, r1⟩ := v
        rw [hm] at h
        simp only [Option.some.injEq, Prod.mk.injEq] at h
        obtain ⟨-, -, hr⟩ := h
        have hlt := ih pre1 d1 r1 hm
        subst hr
        simp only [List.length_cons]
        omega

/-- Python `re.split(r'([.!?]+\s+)', text)`: the alternating list of
non-matched text pieces and captured delimiters. -/
def reSplitSent (s : Str) : List Str :=
  match h : findSentMatch s with
  | none => [s]
  | some (pre, d, r) => pre :: d :: reSplitSent r
termination_by s.length
decreasing_by exact findSentMatch_shrink _ _ _ _ h

/-- The pairwise loop of `split_by_sentences`: for each `(text, delimiter)`
pair of the alternating regex-split list, emit `strip(text ++ delimiter)` when
non-empty.  A trailing unpaired text piece is dropped (as the Python loop
`range(0, len(sentences) - 1, 2)` does). -/
def sbsPairs : List Str → List Str
  | t :: d :: rest =>
    (if pyStrip (t ++ d) ≠ [] then [pyStrip (t ++ d)] else []) ++ sbsPairs rest
  | _ => []

/-- `split_by_sentences` from `text_processing.py`. -/
def split_by_sentences (text : Str) : List Str :=
  sbsPairs (reSplitSent text)

/-- The buffer-flush idiom of `text_processing.py`:
`if current_chunk: chunks.append(current_chunk.strip())`. -/
def flushChunk (chunks : List Str) (cur : Str) : List Str :=
  if cur ≠ [] then chunks ++ [pyStrip cur] else chunks

/-- The trailing `if current_chunk: chunks.append(current_chunk.strip())`
after a loop, applied to a `(chunks, buffer)` state. -/
def endFlush (st : List Str × Str) : List Str := flushChunk st.1 st.2

/-- One iteration of the word loop of `split_by_words`: state is
`(chunks emitted so far, current_chunk)`. -/
def sbwStep (maxSize : Nat) (st : List Str × Str) (word : Str) : List Str × Str :=
  let chunks := st.1
  let cur := st.2
  if cur.length + word.length + 1 > maxSize then
    (flushChunk chunks cur, word)
  else
    (chunks, cur ++ (if cur ≠ [] then ' ' :: word else word))

/-- `split_by_words` from `text_processing.py`. -/
def split_by_words (text : Str) (maxSize : Nat) : List Str :=
  endFlush ((pySplitWs text).foldl (sbwStep maxSize) ([], []))

/-- One iteration of the sentence loop of `split_content_intelligently`:
state is `(chunks emitted so far, temp_chunk)`. -/
def sciSentStep (chunkSize : Nat) (st : List Str × Str) (sentence : Str) :
    List Str × Str :=
  let chunks := st.1
  let temp := st.2
  if temp.length + sentence.length + 1 > chunkSize then
    if sentence.length > chunkSize then
      (flushChunk chunks temp ++ split_by_words sentence chunkSize, [])
    else (flushChunk chunks temp, sentence)
  else
    (chunks, temp ++ (if temp ≠ [] then ' ' :: sentence else sentence))

/-- One iteration of the paragraph loop of `split_content_intelligently`:
state is `(chunks emitted so far, current_chunk)`. -/
def sciParaStep (chunkSize : Nat) (st : List Str × Str) (para : Str) :
    List Str × Str :=
  let chunks := st.1
  let cur := st.2
  if cur.length + para.length + 2 > chunkSize then
    if para.length > chunkSize then
      (split_by_sentences para).foldl (sciSentStep chunkSize) (flushChunk chunks cur, [])
    else (flushChunk chunks cur, para)
  else
    (chunks, cur ++ (if cur ≠ [] then '\n' :: '\n' :: para else para))

/-- `split_content_intelligently` from `text_processing.py`. -/
def split_content_intelligently (content : Str) (chunkSize : Nat) : List Str :=
  if content.length ≤ chunkSize then [content]
  else
    endFlush ((splitParas content).foldl (sciParaStep chunkSize) ([], []))

/-- The chunk records built by `chunk_documents_for_processing`
(Python dicts with keys `filename`, `content`, `chunk_index`, `total_chunks`,
`char_count`). -/
structure Chunk where
  filename : Str
  content : Str
  chunk_index : Nat
  total_chunks : Nat
  char_count : Nat
deriving DecidableEq

/-- The per-document chunk list of a large document:
`enumerate(document_chunks, 1)` with metadata attached. -/
def chunkList (filename : Str) (total : Nat) : List Str → Nat → List Chunk
  | [], _ => []
  | t :: ts, i => ⟨filename, t, i, total, t.length⟩ :: chunkList filename total ts (i + 1)

/-- `chunk_documents_for_processing` from `chunking_service.py`; the documents
dictionary is an association list in insertion order. -/
def chunk_documents_for_processing (docs : List (Str × Str)) (chunkSize : Nat) :
    List Chunk :=
  match docs with
  | [] => []
  | (filename, content) :: rest =>
    (if content.length ≤ chunkSize then
      [⟨filename, content, 1, 1, content.length⟩]
    else
      let dchunks := split_content_intelligently content chunkSize
      chunkList filename dchunks.length dchunks 1) ++
    chunk_documents_for_processing rest chunkSize

/-- `DEFAULT_CHUNK_SIZE` from `config.py`. -/
def DEFAULT_CHUNK_SIZE : Nat := 12000

/-- `SEARCH_CHUNK_SIZE` from `config.py`. -/
def SEARCH_CHUNK_SIZE : Nat := 8000

/-- `MAX_CHUNKS_PER_QUERY` from `config.py`. -/
def MAX_CHUNKS_PER_QUERY : Nat := 5

/-- The punctuation characters stripped from word boundaries by the scorer:
`.,!?;:"()[]` together with the two curly braces. -/
def punctChars : Str := ".,!?;:\"()[]\x7b\x7d".data

/-- Python `word.strip('.,!?;:"()[]{}')`. -/
def stripPunct (w : Str) : Str := pyStripP (fun ch => punctChars.contains ch) w

/-- Python `s.lower()` (character-wise case folding). -/
def pyLower (s : Str) : Str := s.map Char.toLower

/-- Python string containment `needle in hay` needs a prefix test:
does `hay` start with `needle`? -/
def startsWith : Str → Str → Bool
  | [], _ => true
  | _ :: _, [] => false
  | a :: as, b :: bs => a == b && startsWith as bs

/-- Python `needle in hay` on strings: contiguous-substring containment
(the empty string is contained in everything). -/
def isSubstr (needle : Str) : Str → Bool
  | [] => needle.isEmpty
  | c :: cs => startsWith needle (c :: cs) || isSubstr needle cs

/-- The query token list before set formation:
`[word.lower().strip(punct) for word in query.split() if len(word) > 2]`.
Note that the length filter applies to the raw whitespace-delimited word,
before lowering and stripping. -/
def queryWordsL (query : Str) : List Str :=
  ((pySplitWs query).filter (fun w => decide (2 < w.length))).map
    (fun w => stripPunct (pyLower w))

/-- Remove duplicates from a list, keeping one occurrence of each distinct
element (the last): a canonical, kernel-computable model of Python `set(...)`
iteration.  Every quantity the scorer derives from its sets (cardinality,
intersection size, sums of per-element contributions) is independent of the
enumeration order, so any canonical order is a faithful model. -/
def dedupKF {a : Type} [DecidableEq a] : List a → List a
  | [] => []
  | x :: xs => if x ∈ xs then dedupKF xs else x :: dedupKF xs

theorem mem_dedupKF {a : Type} [DecidableEq a] {x : a} :
    ∀ {l : List a}, x ∈ dedupKF l ↔ x ∈ l := by
  intro l
  induction l with
  | nil => simp [dedupKF]
  | cons y ys ih =>
    rw [dedupKF]
    split
    · next hy =>
      rw [ih]
      constructor
      · exact fun h => List.mem_cons_of_mem y h
      · intro h
        rcases List.mem_cons.mp h with rfl | h
        · exact hy
        · exact h
    · constructor
      · intro h
        rcases List.mem_cons.mp h with rfl | h
        · exact List.mem_cons_self x ys
        · exact List.mem_cons_of_mem y (ih.mp h)
      · intro h
        rcases List.mem_cons.mp h with rfl | h
        · exact List.mem_cons_self x _
        · exact List.mem_cons_of_mem y (ih.mpr h)

/-- The scorer's query token set `Q`
(`set(word.lower().strip('.,!?;:"()[]{}') for word in query.split() if len(word) > 2)`),
as a duplicate-free list. -/
def queryWords (query : Str) : List Str := dedupKF (queryWordsL query)

/-- The scorer's chunk token set, built from the already-lowercased chunk text
(`set(word.strip('.,!?;:"()[]{}') for word in content_lower.split() if len(word) > 2)`),
as a duplicate-free list. -/
def contentWordsOf (contentLower : Str) : List Str :=
  dedupKF (((pySplitWs contentLower).filter (fun w => decide (2 < w.length))).map
    stripPunct)

/-- Exact rational arithmetic for the relevance scores, kept as unreduced
fractions `num / den` with a positive denominator so that every operation and
comparison is a plain integer computation the kernel can evaluate.  The
Python code computes these quantities in floating point; the small decimal
constants and divisions of the scorer are modelled by their exact rational
values, the standard idealisation. -/
structure Score where
  num : Int
  den : Int
  dpos : 0 < den

/-- The score 0. -/
def Score.zero : Score := ⟨0, 1, by decide⟩

/-- Embedding of a natural number count as a score. -/
def Score.ofNat (n : Nat) : Score := ⟨n, 1, by decide⟩

/-- Addition of fractions, without normalization. -/
def Score.add (a b : Score) : Score :=
  ⟨a.num * b.den + b.num * a.den, a.den * b.den, mul_pos a.dpos b.dpos⟩

/-- Multiplication of fractions. -/
def Score.mul (a b : Score) : Score :=
  ⟨a.num * b.num, a.den * b.den, mul_pos a.dpos b.dpos⟩

/-- Division of fractions.  The scorer only ever divides by positive
quantities (non-empty set cardinalities and positive literals); a
non-positive divisor yields 0 here. -/
def Score.div (a b : Score) : Score :=
  if h : 0 < b.num then ⟨a.num * b.den, a.den * b.num, mul_pos a.dpos h⟩
  else Score.zero

/-- Value comparison of fractions by cross-multiplication. -/
def Score.le (a b : Score) : Prop := a.num * b.den ≤ b.num * a.den

/-- Strict value comparison of fractions by cross-multiplication. -/
def Score.lt (a b : Score) : Prop := a.num * b.den < b.num * a.den

instance : LE Score := ⟨Score.le⟩

instance : LT Score := ⟨Score.lt⟩

instance (a b : Score) : Decidable (a ≤ b) :=
  inferInstanceAs (Decidable (a.num * b.den ≤ b.num * a.den))

instance (a b : Score) : Decidable (a < b) :=
  inferInstanceAs (Decidable (a.num * b.den < b.num * a.den))

theorem Score.ext {a b : Score} (hn : a.num = b.num) (hd : a.den = b.den) :
    a = b := by
  cases a
  cases b
  cases hn
  cases hd
  rfl

instance : DecidableEq Score := fun a b =>
  if h : a.num = b.num ∧ a.den = b.den then isTrue (Score.ext h.1 h.2)
  else isFalse (fun he => h ⟨congrArg Score.num he, congrArg Score.den he⟩)

/-- Python `min(a, b)` on two floats: `b` when `b < a`, else `a`. -/
def Score.minS (a b : Score) : Score := if b < a then b else a

/-- Python `sum(scores)`: left fold of addition starting from 0. -/
def sumScores (l : List Score) : Score := l.foldl Score.add Score.zero

/-- The constant 0.5 of the partial-match score. -/
def scoreHalf : Score := ⟨1, 2, by decide⟩

/-- The constant 0.3 of the phrase score. -/
def scorePoint3 : Score := ⟨3, 10, by decide⟩

/-- The constant 0.2 capping the length bonus. -/
def scorePoint2 : Score := ⟨1, 5, by decide⟩

/-- The constant 1.0 capping the partial and phrase scores. -/
def scoreOne : Score := ⟨1, 1, by decide⟩

/-- The constant 2.0 weighting the exact-overlap score. -/
def scoreTwo : Score := ⟨2, 1, by decide⟩

/-- The constant 10000 of the length bonus. -/
def scoreTenThousand : Score := ⟨10000, 1, by decide⟩

/-- The fixed fallback threshold 0.1 of the selector. -/
def scoreTenth : Score := ⟨1, 10, by decide⟩

/-- The composite relevance score of one chunk against a query, from the
scoring loop of `find_most_relevant_chunks`: exact keyword overlap (weighted
2.0), partial word matching (0.5 per related pair, normalized by `|Q|`,
capped at 1), phrase presence (0.3 per query word occurring anywhere in the
lowercased text, only for multi-word queries, capped at 1), and a length
bonus `min(len(content)/10000, 0.2)`. -/
def chunkScore (query : Str) (chunk : Chunk) : Score :=
  let qw := queryWords query
  let contentLower := pyLower chunk.content
  let cw := contentWordsOf contentLower
  let exactMatches := (qw.filter (fun w => decide (w ∈ cw))).length
  let exactScore := if qw ≠ [] then (Score.ofNat exactMatches).div (Score.ofNat qw.length)
    else Score.zero
  let s1 := exactScore.mul scoreTwo
  let partialRaw := sumScores (qw.map (fun q => sumScores (cw.map (fun c =>
    if isSubstr q c || isSubstr c q then scoreHalf else Score.zero))))
  let partialNorm := if qw ≠ [] then partialRaw.div (Score.ofNat qw.length)
    else Score.zero
  let s2 := partialNorm.minS scoreOne
  let phraseRaw := if 1 < (pySplitWs query).length then
      sumScores (qw.map (fun q => if isSubstr q contentLower then scorePoint3 else Score.zero))
    else Score.zero
  let s3 := phraseRaw.minS scoreOne
  let s4 := ((Score.ofNat chunk.content.length).div scoreTenThousand).minS scorePoint2
  sumScores [s1, s2, s3, s4]

/-- The sort order of `scored_chunks.sort(key=lambda x: x[0], reverse=True)`:
descending by score value.  Insertion sort with this relation reproduces
Python's stable descending sort (equal scores keep their original relative
order). -/
def scoreGe (x y : Score × Chunk) : Prop := y.1 ≤ x.1

instance : DecidableRel scoreGe := fun x y =>
  inferInstanceAs (Decidable (y.1 ≤ x.1))

theorem Score.le_trans {a b c : Score} (h1 : a ≤ b) (h2 : b ≤ c) : a ≤ c := by
  have hb := b.dpos
  have h1' : a.num * b.den ≤ b.num * a.den := h1
  have h2' : b.num * c.den ≤ c.num * b.den := h2
  have step : a.num * c.den * b.den ≤ c.num * a.den * b.den := by
    have t1 : a.num * b.den * c.den ≤ b.num * a.den * c.den :=
      mul_le_mul_of_nonneg_right h1' c.dpos.le
    have t2 : b.num * c.den * a.den ≤ c.num * b.den * a.den :=
      mul_le_mul_of_nonneg_right h2' a.dpos.le
    calc a.num * c.den * b.den = a.num * b.den * c.den := by ring
      _ ≤ b.num * a.den * c.den := t1
      _ = b.num * c.den * a.den := by ring
      _ ≤ c.num * b.den * a.den := t2
      _ = c.num * a.den * b.den := by ring
  exact le_of_mul_le_mul_right step hb

theorem Score.le_total (a b : Score) : a ≤ b ∨ b ≤ a :=
  Int.le_total (a.num * b.den) (b.num * a.den)

theorem Score.not_lt {a b : Score} : ¬ a < b ↔ b ≤ a := Int.not_lt

instance : IsTotal (Score × Chunk) scoreGe := ⟨fun a b => Score.le_total b.1 a.1⟩

instance : IsTrans (Score × Chunk) scoreGe :=
  ⟨fun _ _ _ h1 h2 => Score.le_trans h2 h1⟩

/-- The score-sorted scored-chunk list built inside `find_most_relevant_chunks`. -/
def sortedScored (chunks : List Chunk) (query : Str) : List (Score × Chunk) :=
  List.insertionSort scoreGe (chunks.map (fun c => (chunkScore query c, c)))

/-- `scored_chunks[0][0]`: the score at the head of the sorted list
(0 for the empty list, which the code never reads). -/
def topScore : List (Score × Chunk) → Score
  | [] => Score.zero
  | x :: _ => x.1

/-- The fallback loop of `find_most_relevant_chunks`: walk the sorted list,
keep the first chunk of each not-yet-seen document, and stop as soon as the
accumulated list has reached `max_chunks` entries (checked after appending). -/
def fallbackLoop (maxChunks : Nat) :
    List (Score × Chunk) → List Str → List Chunk → List Chunk
  | [], _, acc => acc
  | (_, c) :: rest, seen, acc =>
    if c.filename ∈ seen then fallbackLoop maxChunks rest seen acc
    else
      if maxChunks ≤ (acc ++ [c]).length then acc ++ [c]
      else fallbackLoop maxChunks rest (c.filename :: seen) (acc ++ [c])

/-- `find_most_relevant_chunks` from `chunking_service.py`. -/
def find_most_relevant_chunks (chunks : List Chunk) (query : Str)
    (maxChunks : Nat) : List Chunk :=
  if chunks = [] then []
  else
    let sorted := sortedScored chunks query
    if sorted = [] ∨ topScore sorted < scoreTenth then fallbackLoop maxChunks sorted [] []
    else (sorted.take maxChunks).map Prod.snd

/-- The sentinel returned by `format_chunks_for_prompt` on empty input. -/
def noContentMsg : Str := "No relevant document content found.".data

/-- Decimal rendering of a natural number, for the f-string headers. -/
def natStr (n : Nat) : Str := (Nat.repr n).data

/-- The header-plus-text block rendered for one chunk by
`format_chunks_for_prompt`. -/
def chunkBlock (c : Chunk) : Str :=
  let header1 := "[Document: ".data ++ c.filename
  let header2 :=
    if 1 < c.total_chunks then
      header1 ++ " - Part ".data ++ natStr c.chunk_index ++ "/".data ++
        natStr c.total_chunks
    else header1
  let header := header2 ++ "] (".data ++ natStr c.char_count ++ " chars)".data
  header ++ "\n".data ++ c.content

/-- Python `sep.join(parts)`. -/
def joinSep (sep : Str) : List Str → Str
  | [] => []
  | [x] => x
  | x :: y :: rest => x ++ sep ++ joinSep sep (y :: rest)

/-- `format_chunks_for_prompt` from `chunking_service.py`.  Note the Python
expression `"\n\n" + "="*60 + "\n\n".join(formatted_parts)`: the 60-character
rule is prepended once, and the blocks are joined with `"\n\n"` only. -/
def format_chunks_for_prompt (chunks : List Chunk) : Str :=
  if chunks = [] then noContentMsg
  else
    "\n\n".data ++ List.replicate 60 '=' ++
      joinSep "\n\n".data (chunks.map chunkBlock)

/-- The per-chunk record of a search result (keys `filename`, `chunk_index`,
`total_chunks`, `char_count`, `preview`, `full_content`). -/
structure SearchChunk where
  filename : Str
  chunk_index : Nat
  total_chunks : Nat
  char_count : Nat
  preview : Str
  full_content : Str
deriving DecidableEq

/-- The result record of `search_documents`. -/
structure SearchResult where
  query : Str
  chunks : List SearchChunk
  total_found : Nat
  total_available : Nat
deriving DecidableEq

/-- `chunk["content"][:500] + "..." if len(...) > 500 else chunk["content"]`. -/
def previewOf (content : Str) : Str :=
  if 500 < content.length then content.take 500 ++ "...".data else content

/-- `search_documents` from `chunking_service.py`. -/
def search_documents (docs : List (Str × Str)) (query : Str)
    (maxResults : Nat) : SearchResult :=
  let allChunks := chunk_documents_for_processing docs SEARCH_CHUNK_SIZE
  if allChunks = [] then ⟨query, [], 0, 0⟩
  else
    let relevant := find_most_relevant_chunks allChunks query maxResults
    ⟨query,
      relevant.map (fun c =>
        ⟨c.filename, c.chunk_index, c.total_chunks, c.char_count,
          previewOf c.content, c.content⟩),
      relevant.length, allChunks.length⟩

/-- Concatenation of the `content` fields of a chunk list, in order, with no
separator. -/
def joinContents : List Chunk → Str
  | [] => []
  | c :: cs => c.content ++ joinContents cs

/-- Document name used in the C1 counterexample. -/
def c1name : Str := "doc".data

/-- Two-paragraph document used in the C1 counterexample: every paragraph and
every word is far shorter than the chunk size, yet reconstruction fails. -/
def c1content : Str := "aa\n\nbb".data

/-- A chunk used in the C3 counterexample. -/
def c3chunk : Chunk := ⟨"a.txt".data, "xyz".data, 1, 1, 3⟩

/-- A query with no lexical overlap with `c3chunk`. -/
def c3query : Str := "hello".data

/-- A chunk used in the C4 counterexample. -/
def c4chunk : Chunk := ⟨"b.txt".data, "pqr".data, 1, 1, 3⟩

/-- A query with no lexical overlap with `c4chunk`. -/
def c4query : Str := "world".data

/-- First chunk of the C7 failing input. -/
def c7a : Chunk := ⟨"a.txt".data, "AA".data, 1, 1, 2⟩

/-- Second chunk of the C7 failing input. -/
def c7b : Chunk := ⟨"b.txt".data, "BB".data, 1, 1, 2⟩

/-- Content used in the C9 witness: longer than the chunk size 3, with a
chunk that needed trailing-whitespace stripping. -/
def c9content : Str := "aaa\n\nbb ".data

/-- C8: on empty input every core operation returns an empty result rather
than raising: `assemble({}) = []`, `format([])` is the fixed no-content
sentinel, and `search({})` reports no chunks, `total_found = 0` and
`total_available = 0`. -/
theorem C8_empty_inputs (chunkSize maxResults : Nat) (query : Str) :
    chunk_documents_for_processing [] chunkSize = [] ∧
    format_chunks_for_prompt [] = noContentMsg ∧
    (search_documents [] query maxResults).chunks = [] ∧
    (search_documents [] query maxResults).total_found = 0 ∧
    (search_documents [] query maxResults).total_available = 0 := by
  refine ⟨rfl, rfl, ?_, ?_, ?_⟩ <;> rfl

/-- C1 counterexample: for the two-paragraph document `"aa\n\nbb"` and
`chunk_size = 4`, every paragraph and every word fits well within the chunk
size (no truncation in any sense), yet concatenating the emitted chunk texts
does not reconstruct the content: the blank-line separator between the two
paragraphs is dropped at the chunk boundary. -/
theorem C1_concat_counterexample :
    ((splitParas c1content).all (fun p => decide (p.length ≤ 4)) = true) ∧
    ((pySplitWs c1content).all (fun w => decide (w.length ≤ 4)) = true) ∧
    joinContents (chunk_documents_for_processing [(c1name, c1content)] 4) ≠
      c1content := by
  decide

/-- C1 amended: concatenating the chunk texts of `assemble({doc: C}, size)`
reconstructs `C` exactly in the no-split case `len(C) ≤ chunk_size` (the
document is emitted as one single chunk); as soon as the splitter emits more
than one chunk the separators dropped at chunk boundaries make exact
reconstruction fail. -/
theorem C1_single_chunk_reconstruction (name content : Str) (chunkSize : Nat)
    (h : content.length ≤ chunkSize) :
    joinContents (chunk_documents_for_processing [(name, content)] chunkSize) =
      content := by
  simp [chunk_documents_for_processing, if_pos h, joinContents]

theorem C1_single_chunk_reconstruction_witness :
    ("ab".data).length ≤ 5 ∧
    joinContents (chunk_documents_for_processing [("d".data, "ab".data)] 5) =
      "ab".data :=
  ⟨by decide, C1_single_chunk_reconstruction "d".data "ab".data 5 (by decide)⟩

/-- C6 counterexample: the scorer filters on the length of the raw
whitespace-delimited word before stripping punctuation, so the query `"it."`
(length 3) contributes the token `"it"` of length 2 to `Q`, refuting "no
token of length 2 or less belongs to Q". -/
theorem C6_short_token_counterexample :
    "it".data ∈ queryWords "it.".data ∧ ("it".data).length ≤ 2 := by
  decide

/-- C6 amended: `Q` is exactly the set of `lower(strip(w))` for the
whitespace-delimited words `w` of the query whose raw (pre-strip) length
exceeds 2; each token is case-folded with the punctuation characters stripped
from its boundaries, but the length-greater-than-2 filter applies before
stripping, so `Q` may contain tokens of length 2 or less. -/
theorem C6_query_token_characterization (query t : Str) :
    t ∈ queryWords query ↔
      ∃ w ∈ pySplitWs query, 2 < w.length ∧ t = stripPunct (pyLower w) := by
  simp only [queryWords, mem_dedupKF, queryWordsL, List.mem_map,
    List.mem_filter, decide_eq_true_eq]
  constructor
  · rintro ⟨w, ⟨hw, hl⟩, ht⟩
    exact ⟨w, hw, hl, ht.symm⟩
  · rintro ⟨w, hw, hl, ht⟩
    exact ⟨w, ⟨hw, hl⟩, ht.symm⟩

/-- C7, evaluating the code at the failing input: with two chunks the
formatter emits the 60-character `=` rule exactly once, glued directly before
the first header, and the two chunk blocks are joined by a blank line only —
no character of the rule occurs at the boundary between the two blocks
(everything after position 62 is free of `'='`). -/
theorem C7_rule_not_between_blocks :
    format_chunks_for_prompt [c7a, c7b] =
      "\n\n".data ++ List.replicate 60 '=' ++
        "[Document: a.txt] (2 chars)\nAA\n\n[Document: b.txt] (2 chars)\nBB".data ∧
    ((format_chunks_for_prompt [c7a, c7b]).drop 62).all (fun ch => ch != '=') =
      true := by
  decide

/-- A string free of (ASCII) whitespace. -/
def noSpace (s : Str) : Prop := ∀ c ∈ s, pyIsSpace c = false

theorem mem_pySplitWsAux :
    ∀ (s acc w : Str), noSpace acc → w ∈ pySplitWsAux s acc →
      w ≠ [] ∧ noSpace w := by
  intro s
  induction s with
  | nil =>
    intro acc w hacc hw
    simp only [pySplitWsAux] at hw
    split at hw
    · simp at hw
    · next hne =>
      simp only [List.mem_singleton] at hw
      subst hw
      refine ⟨by simpa using hne, ?_⟩
      intro c hc
      exact hacc c (List.mem_reverse.mp hc)
  | cons a s ih =>
    intro acc w hacc hw
    simp only [pySplitWsAux] at hw
    split at hw
    · rw [List.mem_append] at hw
      rcases hw with hw | hw
      · split at hw
        · simp at hw
        · next hne =>
          simp only [List.mem_singleton] at hw
          subst hw
          refine ⟨by simpa using hne, ?_⟩
          intro c hc
          exact hacc c (List.mem_reverse.mp hc)
      · exact ih [] w (by intro c hc; simp at hc) hw
    · next ha =>
      refine ih (a :: acc) w ?_ hw
      intro c hc
      rcases List.mem_cons.mp hc with rfl | hc
      · simpa using ha
      · exact hacc c hc

theorem mem_pySplitWs {s w : Str} (hw : w ∈ pySplitWs s) :
    w ≠ [] ∧ noSpace w :=
  mem_pySplitWsAux s [] w (by intro c hc; simp at hc) hw

theorem pySplitWsAux_of_noSpace :
    ∀ (s acc : Str), noSpace s → s ≠ [] →
      pySplitWsAux s acc = [acc.reverse ++ s] := by
  intro s
  induction s with
  | nil => intro acc _ hne; exact absurd rfl hne
  | cons a s ih =>
    intro acc hns _
    have ha : pyIsSpace a = false := hns a (List.mem_cons_self a s)
    simp only [pySplitWsAux, ha, Bool.false_eq_true, if_false]
    rcases eq_or_ne s [] with rfl | hne
    · simp [pySplitWsAux]
    · rw [ih (a :: acc) (fun c hc => hns c (List.mem_cons_of_mem a hc)) hne]
      simp

/-- A whitespace-free non-empty string is its own single word. -/
theorem pySplitWs_of_noSpace {s : Str} (hns : noSpace s) (hne : s ≠ []) :
    pySplitWs s = [s] := by
  simpa using pySplitWsAux_of_noSpace s [] hns hne

theorem dropWhile_eq_self_of_all_false {p : Char → Bool} :
    ∀ {l : Str}, (∀ c ∈ l, p c = false) → l.dropWhile p = l := by
  intro l h
  cases l with
  | nil => rfl
  | cons c cs =>
    rw [List.dropWhile_cons, h c (List.mem_cons_self c cs)]
    simp

theorem pyStripP_of_all_false {p : Char → Bool} {s : Str}
    (h : ∀ c ∈ s, p c = false) : pyStripP p s = s := by
  unfold pyStripP
  rw [dropWhile_eq_self_of_all_false h,
    dropWhile_eq_self_of_all_false (by intro c hc; exact h c (List.mem_reverse.mp hc)),
    List.reverse_reverse]

theorem pyStripP_length_le (p : Char → Bool) (s : Str) :
    (pyStripP p s).length ≤ s.length := by
  unfold pyStripP
  have h1 := length_dropWhile_le p s
  have h2 := length_dropWhile_le p (s.dropWhile p).reverse
  simp only [List.length_reverse] at *
  omega

theorem dropWhile_dropWhile (p : Char → Bool) :
    ∀ (l : Str), (l.dropWhile p).dropWhile p = l.dropWhile p := by
  intro l
  induction l with
  | nil => rfl
  | cons c cs ih =>
    rw [List.dropWhile_cons]
    split
    · exact ih
    · next hc =>
      rw [List.dropWhile_cons]
      simp only [hc, if_false]
      simp_all

/-- Dropping trailing characters satisfying `p`. -/
def dropEndWhile (p : Char → Bool) (t : Str) : Str :=
  (t.reverse.dropWhile p).reverse

theorem pyStripP_eq_dropEnd (p : Char → Bool) (s : Str) :
    pyStripP p s = dropEndWhile p (s.dropWhile p) := rfl

theorem dropEndWhile_isPre (p : Char → Bool) (t : Str) :
    dropEndWhile p t <+: t := by
  obtain ⟨u, hu⟩ := List.dropWhile_suffix (l := t.reverse) p
  exact ⟨u.reverse, by rw [dropEndWhile, ← List.reverse_append, hu, List.reverse_reverse]⟩

theorem dropEndWhile_idem (p : Char → Bool) (t : Str) :
    dropEndWhile p (dropEndWhile p t) = dropEndWhile p t := by
  unfold dropEndWhile
  rw [List.reverse_reverse, dropWhile_dropWhile]

theorem head_false_of_dropWhile_eq {p : Char → Bool} {c : Char} {cs : Str}
    (h : (c :: cs).dropWhile p = c :: cs) : p c = false := by
  by_cases hc : p c = true
  · rw [List.dropWhile_cons, if_pos hc] at h
    have := length_dropWhile_le p cs
    have hlen := congrArg List.length h
    simp only [List.length_cons] at hlen
    omega
  · simpa using hc

theorem dropWhile_dropEnd_comm {p : Char → Bool} {t : Str}
    (ht : t.dropWhile p = t) : (dropEndWhile p t).dropWhile p = dropEndWhile p t := by
  obtain ⟨u, hu⟩ := dropEndWhile_isPre p t
  cases hd : dropEndWhile p t with
  | nil => rfl
  | cons c cs =>
    rw [hd] at hu
    have hc : p c = false := by
      have : t = c :: (cs ++ u) := by rw [← hu]; simp
      rw [this] at ht
      exact head_false_of_dropWhile_eq ht
    rw [List.dropWhile_cons, hc]
    simp

theorem pyStripP_idem (p : Char → Bool) (s : Str) :
    pyStripP p (pyStripP p s) = pyStripP p s := by
  rw [pyStripP_eq_dropEnd p s]
  rw [pyStripP_eq_dropEnd p (dropEndWhile p (s.dropWhile p))]
  rw [dropWhile_dropEnd_comm (dropWhile_dropWhile p s), dropEndWhile_idem]

theorem pyStrip_idem (s : Str) : pyStrip (pyStrip s) = pyStrip s :=
  pyStripP_idem pyIsSpace s

theorem pyStrip_length_le (s : Str) : (pyStrip s).length ≤ s.length :=
  pyStripP_length_le pyIsSpace s

theorem pyStrip_of_noSpace {s : Str} (h : noSpace s) : pyStrip s = s :=
  pyStripP_of_all_false h

/-- The invariant satisfied by every chunk the splitter emits: the chunk
respects the size bound unless it consists of (at least) one oversized word,
and it is equal to its own whitespace-stripped form. -/
def goodChunk (m : Nat) (c : Str) : Prop :=
  (c.length ≤ m ∨ ∃ w ∈ pySplitWs c, m < w.length) ∧ pyStrip c = c

theorem goodChunk_strip {m : Nat} {cur : Str}
    (h : cur.length ≤ m ∨ (cur ≠ [] ∧ noSpace cur)) :
    goodChunk m (pyStrip cur) := by
  rcases h with h | ⟨hne, hns⟩
  · exact ⟨Or.inl (le_trans (pyStrip_length_le cur) h), pyStrip_idem cur⟩
  · rw [pyStrip_of_noSpace hns]
    refine ⟨?_, pyStrip_of_noSpace hns⟩
    by_cases hl : cur.length ≤ m
    · exact Or.inl hl
    · refine Or.inr ⟨cur, ?_, by omega⟩
      rw [pySplitWs_of_noSpace hns hne]
      exact List.mem_singleton.mpr rfl

theorem flushChunk_good {m : Nat} {chunks : List Str} {cur : Str}
    (h1 : ∀ c ∈ chunks, goodChunk m c)
    (h2 : cur.length ≤ m ∨ (cur ≠ [] ∧ noSpace cur)) :
    ∀ c ∈ flushChunk chunks cur, goodChunk m c := by
  intro c hc
  unfold flushChunk at hc
  split at hc
  · rcases List.mem_append.mp hc with hc | hc
    · exact h1 c hc
    · rw [List.mem_singleton] at hc
      subst hc
      exact goodChunk_strip h2
  · exact h1 c hc

theorem foldl_inv {σ α : Type} {I : σ → Prop} {P : α → Prop} {f : σ → α → σ}
    (step : ∀ s a, I s → P a → I (f s a)) :
    ∀ (l : List α) (s : σ), (∀ a ∈ l, P a) → I s → I (l.foldl f s) := by
  intro l
  induction l with
  | nil => intro s _ hs; exact hs
  | cons a l ih =>
    intro s h hs
    exact ih (f s a) (fun b hb => h b (List.mem_cons_of_mem a hb))
      (step s a hs (h a (List.mem_cons_self a l)))

/-- Invariant of the word loop: emitted chunks are good, and the buffer
either fits the bound or is a single whitespace-free (possibly oversized)
word fragment. -/
def wordsInv (m : Nat) (st : List Str × Str) : Prop :=
  (∀ c ∈ st.1, goodChunk m c) ∧
    (st.2.length ≤ m ∨ (st.2 ≠ [] ∧ noSpace st.2))

theorem sbwStep_inv (m : Nat) (st : List Str × Str) (w : Str)
    (hI : wordsInv m st) (hw : w ≠ [] ∧ noSpace w) :
    wordsInv m (sbwStep m st w) := by
  obtain ⟨chunks, cur⟩ := st
  obtain ⟨hchunks, hcur⟩ := hI
  unfold sbwStep
  simp only
  split
  · exact ⟨flushChunk_good hchunks hcur, Or.inr hw⟩
  · next hle =>
    refine ⟨hchunks, Or.inl ?_⟩
    rw [not_lt] at hle
    split <;> simp only [List.length_append, List.length_cons] <;> omega

theorem endFlush_good {m : Nat} {st : List Str × Str}
    (h1 : ∀ c ∈ st.1, goodChunk m c)
    (h2 : st.2.length ≤ m ∨ (st.2 ≠ [] ∧ noSpace st.2)) :
    ∀ c ∈ endFlush st, goodChunk m c :=
  flushChunk_good h1 h2

theorem split_by_words_good (t : Str) (m : Nat) :
    ∀ c ∈ split_by_words t m, goodChunk m c := by
  have hfold : wordsInv m ((pySplitWs t).foldl (sbwStep m) ([], [])) :=
    foldl_inv (fun s a hs ha => sbwStep_inv m s a hs ha) (pySplitWs t) ([], [])
      (fun w hw => mem_pySplitWs hw)
      ⟨fun c hc => absurd hc (List.not_mem_nil c), Or.inl (by simp)⟩
  exact endFlush_good hfold.1 hfold.2

/-- Invariant of the sentence and paragraph loops: emitted chunks are good
and the buffer fits the bound. -/
def chunksInv (m : Nat) (st : List Str × Str) : Prop :=
  (∀ c ∈ st.1, goodChunk m c) ∧ st.2.length ≤ m

theorem sciSentStep_inv (m : Nat) (st : List Str × Str) (s : Str)
    (hI : chunksInv m st) : chunksInv m (sciSentStep m st s) := by
  obtain ⟨chunks, temp⟩ := st
  obtain ⟨hchunks, htemp⟩ := hI
  unfold sciSentStep
  simp only
  split
  · split
    · refine ⟨?_, by simp⟩
      intro c hc
      rcases List.mem_append.mp hc with hc | hc
      · exact flushChunk_good hchunks (Or.inl htemp) c hc
      · exact split_by_words_good s m c hc
    · next hsmall =>
      rw [not_lt] at hsmall
      exact ⟨flushChunk_good hchunks (Or.inl htemp), hsmall⟩
  · next hle =>
    refine ⟨hchunks, ?_⟩
    rw [not_lt] at hle
    split <;> simp only [List.length_append, List.length_cons] <;> omega

theorem sciParaStep_inv (m : Nat) (st : List Str × Str) (p : Str)
    (hI : chunksInv m st) : chunksInv m (sciParaStep m st p) := by
  obtain ⟨chunks, cur⟩ := st
  obtain ⟨hchunks, hcur⟩ := hI
  unfold sciParaStep
  simp only
  split
  · split
    · exact foldl_inv (P := fun _ => True)
        (fun s2 a hs _ => sciSentStep_inv m s2 a hs) (split_by_sentences p)
        (flushChunk chunks cur, []) (fun _ _ => trivial)
        ⟨flushChunk_good hchunks (Or.inl hcur), by simp⟩
    · next hsmall =>
      rw [not_lt] at hsmall
      exact ⟨flushChunk_good hchunks (Or.inl hcur), hsmall⟩
  · next hle =>
    refine ⟨hchunks, ?_⟩
    rw [not_lt] at hle
    split <;> simp only [List.length_append, List.length_cons] <;> omega

theorem split_content_intelligently_good {content : Str} {m : Nat}
    (h : m < content.length) :
    ∀ c ∈ split_content_intelligently content m, goodChunk m c := by
  unfold split_content_intelligently
  rw [if_neg (by omega)]
  have hfold : chunksInv m ((splitParas content).foldl (sciParaStep m) ([], [])) :=
    foldl_inv (P := fun _ => True)
      (fun s a hs _ => sciParaStep_inv m s a hs) (splitParas content) ([], [])
      (fun _ _ => trivial) ⟨fun c hc => absurd hc (List.not_mem_nil c), by simp⟩
  exact endFlush_good hfold.1 (Or.inl hfold.2)

theorem mem_chunkList {fn : Str} {total : Nat} :
    ∀ (ts : List Str) (i : Nat) (c : Chunk), c ∈ chunkList fn total ts i →
      c.content ∈ ts ∧ c.char_count = c.content.length ∧ c.filename = fn := by
  intro ts
  induction ts with
  | nil => intro i c hc; simp [chunkList] at hc
  | cons t ts ih =>
    intro i c hc
    rw [chunkList] at hc
    rcases List.mem_cons.mp hc with rfl | hc
    · exact ⟨List.mem_cons_self t ts, rfl, rfl⟩
    · obtain ⟨h1, h2, h3⟩ := ih (i + 1) c hc
      exact ⟨List.mem_cons_of_mem t h1, h2, h3⟩

/-- A chunk of a small document used in the C2 witness. -/
def c2chunk : Chunk := ⟨"d".data, "hi".data, 1, 1, 2⟩

/-- C2: every chunk emitted by `chunk_documents_for_processing` has
`char_count` equal to the length of its text, and that length is at most
`chunk_size` except when a single whitespace-delimited word of the chunk
itself exceeds `chunk_size` (word-atomicity exception). -/
theorem C2_size_bound (docs : List (Str × Str)) (chunkSize : Nat) (c : Chunk)
    (h : c ∈ chunk_documents_for_processing docs chunkSize) :
    c.char_count = c.content.length ∧
    (c.char_count ≤ chunkSize ∨
      ∃ w ∈ pySplitWs c.content, chunkSize < w.length) := by
  induction docs with
  | nil => simp [chunk_documents_for_processing] at h
  | cons d rest ih =>
    obtain ⟨filename, content⟩ := d
    rw [chunk_documents_for_processing] at h
    rcases List.mem_append.mp h with h | h
    · split at h
      · next hsmall =>
        rw [List.mem_singleton] at h
        subst h
        exact ⟨rfl, Or.inl hsmall⟩
      · next hbig =>
        rw [not_le] at hbig
        obtain ⟨h1, h2, -⟩ := mem_chunkList _ _ c h
        have hg := split_content_intelligently_good hbig c.content h1
        refine ⟨h2, ?_⟩
        rw [h2]
        exact hg.1
    · exact ih h

theorem C2_size_bound_witness :
    c2chunk ∈ chunk_documents_for_processing [("d".data, "hi".data)] 5 ∧
    c2chunk.char_count = c2chunk.content.length ∧
    (c2chunk.char_count ≤ 5 ∨ ∃ w ∈ pySplitWs c2chunk.content, 5 < w.length) :=
  ⟨by decide, C2_size_bound [("d".data, "hi".data)] 5 c2chunk (by decide)⟩

/-- C9: when the content is longer than the chunk size, every chunk returned
by `split_content_intelligently` equals its own whitespace-stripped form
(every emitted chunk goes through `.strip()`). -/
theorem C9_chunks_stripped (content : Str) (chunkSize : Nat)
    (h : chunkSize < content.length) (c : Str)
    (hc : c ∈ split_content_intelligently content chunkSize) :
    pyStrip c = c :=
  (split_content_intelligently_good h c hc).2

theorem C9_chunks_stripped_witness :
    3 < c9content.length ∧
    "bb".data ∈ split_content_intelligently c9content 3 ∧
    pyStrip "bb".data = "bb".data :=
  ⟨by decide, by decide,
    C9_chunks_stripped c9content 3 (by decide) "bb".data (by decide)⟩

theorem Score.le_refl (a : Score) : a ≤ a := Int.le_refl _

theorem sortedScored_perm (chunks : List Chunk) (query : Str) :
    (sortedScored chunks query).Perm
      (chunks.map fun c => (chunkScore query c, c)) :=
  List.perm_insertionSort _ _

theorem sortedScored_sorted (chunks : List Chunk) (query : Str) :
    List.Sorted scoreGe (sortedScored chunks query) :=
  List.sorted_insertionSort _ _

theorem map_snd_scored (chunks : List Chunk) (query : Str) :
    ((chunks.map fun c => (chunkScore query c, c)).map Prod.snd) = chunks := by
  have hid : (Prod.snd ∘ fun c : Chunk => (chunkScore query c, c)) = id := rfl
  rw [List.map_map, hid, List.map_id]

theorem map_snd_sorted_perm (chunks : List Chunk) (query : Str) :
    ((sortedScored chunks query).map Prod.snd).Perm chunks := by
  have h := (sortedScored_perm chunks query).map Prod.snd
  rwa [map_snd_scored] at h

theorem sortedScored_ne_nil {chunks : List Chunk} (query : Str)
    (h : chunks ≠ []) : sortedScored chunks query ≠ [] := by
  intro he
  have hlen := (sortedScored_perm chunks query).length_eq
  rw [he, List.length_nil, List.length_map] at hlen
  exact h (List.length_eq_zero.mp hlen.symm)

theorem find_eq_fallback {chunks : List Chunk} {query : Str} {k : Nat}
    (hne : chunks ≠ [])
    (hlow : topScore (sortedScored chunks query) < scoreTenth) :
    find_most_relevant_chunks chunks query k =
      fallbackLoop k (sortedScored chunks query) [] [] := by
  simp only [find_most_relevant_chunks]
  rw [if_neg hne, if_pos (Or.inr hlow)]

theorem find_eq_take {chunks : List Chunk} {query : Str} {k : Nat}
    (hne : chunks ≠ [])
    (hhigh : scoreTenth ≤ topScore (sortedScored chunks query)) :
    find_most_relevant_chunks chunks query k =
      ((sortedScored chunks query).take k).map Prod.snd := by
  have hcond : ¬ (sortedScored chunks query = [] ∨
      topScore (sortedScored chunks query) < scoreTenth) := by
    push_neg
    exact ⟨sortedScored_ne_nil query hne, Score.not_lt.mpr hhigh⟩
  simp only [find_most_relevant_chunks]
  rw [if_neg hne, if_neg hcond]

theorem topScore_is_max (chunks : List Chunk) (query : Str) (hne : chunks ≠ []) :
    (∃ c ∈ chunks, chunkScore query c = topScore (sortedScored chunks query)) ∧
    (∀ c ∈ chunks, chunkScore query c ≤ topScore (sortedScored chunks query)) := by
  have hperm := sortedScored_perm chunks query
  have hsorted := sortedScored_sorted chunks query
  cases hs : sortedScored chunks query with
  | nil => exact absurd hs (sortedScored_ne_nil query hne)
  | cons x rest =>
    rw [hs] at hperm hsorted
    constructor
    · have hx : x ∈ chunks.map (fun c => (chunkScore query c, c)) :=
        hperm.subset (List.mem_cons_self x rest)
      obtain ⟨c, hc, hceq⟩ := List.mem_map.mp hx
      refine ⟨c, hc, ?_⟩
      simp only [topScore]
      rw [← hceq]
    · intro c hc
      have hmem : (chunkScore query c, c) ∈ x :: rest :=
        hperm.symm.subset (List.mem_map_of_mem _ hc)
      simp only [topScore]
      rcases List.mem_cons.mp hmem with heq | hmem2
      · rw [← heq]
        exact Score.le_refl _
      · exact List.rel_of_sorted_cons hsorted _ hmem2

theorem fallbackLoop_sublist (m : Nat) :
    ∀ (rest : List (Score × Chunk)) (seen : List Str) (acc : List Chunk),
      ∃ t, t.Sublist (rest.map Prod.snd) ∧
        fallbackLoop m rest seen acc = acc ++ t := by
  intro rest
  induction rest with
  | nil =>
    intro seen acc
    exact ⟨[], List.nil_sublist _, by simp [fallbackLoop]⟩
  | cons x rest ih =>
    intro seen acc
    obtain ⟨s, c⟩ := x
    rw [fallbackLoop]
    split
    · obtain ⟨t, ht, he⟩ := ih seen acc
      exact ⟨t, ht.cons _, he⟩
    · split
      · exact ⟨[c], (List.nil_sublist _).cons₂ c, rfl⟩
      · obtain ⟨t, ht, he⟩ := ih (c.filename :: seen) (acc ++ [c])
        refine ⟨c :: t, ht.cons₂ c, ?_⟩
        rw [he, List.append_assoc, List.singleton_append]

theorem fallbackLoop_length_le (m : Nat) :
    ∀ (rest : List (Score × Chunk)) (seen : List Str) (acc : List Chunk),
      acc.length < m → (fallbackLoop m rest seen acc).length ≤ m := by
  intro rest
  induction rest with
  | nil =>
    intro seen acc h
    rw [fallbackLoop]
    omega
  | cons x rest ih =>
    intro seen acc h
    obtain ⟨s, c⟩ := x
    rw [fallbackLoop]
    split
    · exact ih seen acc h
    · split
      · simp only [List.length_append, List.length_singleton]
        omega
      · next hlt =>
        refine ih _ _ ?_
        simp only [List.length_append, List.length_singleton] at hlt ⊢
        omega

theorem fallbackLoop_nodup (m : Nat) :
    ∀ (rest : List (Score × Chunk)) (seen : List Str) (acc : List Chunk),
      (∀ f, f ∈ seen ↔ f ∈ acc.map Chunk.filename) →
      (acc.map Chunk.filename).Nodup →
      ((fallbackLoop m rest seen acc).map Chunk.filename).Nodup := by
  intro rest
  induction rest with
  | nil =>
    intro seen acc _ hnd
    rw [fallbackLoop]
    exact hnd
  | cons x rest ih =>
    intro seen acc hseen hnd
    obtain ⟨s, c⟩ := x
    rw [fallbackLoop]
    split
    · exact ih seen acc hseen hnd
    · next hnotin =>
      have hcf : c.filename ∉ acc.map Chunk.filename :=
        fun hmem => hnotin ((hseen c.filename).mpr hmem)
      have hnd2 : ((acc ++ [c]).map Chunk.filename).Nodup := by
        rw [List.map_append, List.map_singleton]
        exact (List.perm_append_singleton _ _).nodup_iff.mpr
          (List.nodup_cons.mpr ⟨hcf, hnd⟩)
      split
      · exact hnd2
      · refine ih _ _ ?_ hnd2
        intro f
        rw [List.map_append, List.map_singleton, List.mem_append,
          List.mem_singleton, List.mem_cons]
        constructor
        · intro hf
          rcases hf with rfl | hf
          · exact Or.inr rfl
          · exact Or.inl ((hseen f).mp hf)
        · intro hf
          rcases hf with hf | rfl
          · exact Or.inr ((hseen f).mpr hf)
          · exact Or.inl rfl

theorem find_sublist_of_ne (chunks : List Chunk) (query : Str) (k : Nat)
    (hne : chunks ≠ []) :
    (find_most_relevant_chunks chunks query k).Sublist
      ((sortedScored chunks query).map Prod.snd) := by
  rcases Score.le_total scoreTenth (topScore (sortedScored chunks query)) with h | h
  · rw [find_eq_take hne h]
    exact (List.take_sublist k _).map Prod.snd
  · by_cases hlt : topScore (sortedScored chunks query) < scoreTenth
    · rw [find_eq_fallback hne hlt]
      obtain ⟨t, ht, heq⟩ := fallbackLoop_sublist k (sortedScored chunks query) [] []
      rw [heq, List.nil_append]
      exact ht
    · rw [find_eq_take hne (Score.not_lt.mp hlt)]
      exact (List.take_sublist k _).map Prod.snd

/-- C3 counterexample: in fallback mode (the single chunk scores below 0.1
against the query) with `max_chunks = 0`, the selector still returns one
chunk, because the Python loop checks `len(fallback_chunks) >= max_chunks`
only after appending; so the output length exceeds `max_chunks`. -/
theorem C3_budget_counterexample :
    ¬ ((find_most_relevant_chunks [c3chunk] c3query 0).length ≤ 0) := by
  decide

/-- C3 amended: for every `max_chunks ≥ 1` the selector returns at most
`max_chunks` chunks and at most as many chunks as it was given, in both the
normal and the fallback branch (for `max_chunks = 0` the fallback branch
returns one chunk). -/
theorem C3_budget (chunks : List Chunk) (query : Str) (maxChunks : Nat)
    (h : 1 ≤ maxChunks) :
    (find_most_relevant_chunks chunks query maxChunks).length ≤ maxChunks ∧
    (find_most_relevant_chunks chunks query maxChunks).length ≤ chunks.length := by
  by_cases hne : chunks = []
  · subst hne
    simp [find_most_relevant_chunks]
  · have hlen2 : (find_most_relevant_chunks chunks query maxChunks).length ≤
        chunks.length := by
      have hsub := find_sublist_of_ne chunks query maxChunks hne
      have hle := hsub.length_le
      rw [List.length_map] at hle
      have hpl := (sortedScored_perm chunks query).length_eq
      rw [List.length_map] at hpl
      omega
    refine ⟨?_, hlen2⟩
    by_cases hlt : topScore (sortedScored chunks query) < scoreTenth
    · rw [find_eq_fallback hne hlt]
      refine fallbackLoop_length_le maxChunks _ [] [] ?_
      simp only [List.length_nil]
      omega
    · rw [find_eq_take hne (Score.not_lt.mp hlt), List.length_map]
      exact List.length_take_le _ _

theorem C3_budget_witness :
    1 ≤ 1 ∧
    ((find_most_relevant_chunks [c3chunk] c3query 1).length ≤ 1 ∧
      (find_most_relevant_chunks [c3chunk] c3query 1).length ≤
        [c3chunk].length) :=
  ⟨le_refl 1, C3_budget [c3chunk] c3query 1 (le_refl 1)⟩

/-- C4 counterexample: with a single low-scoring chunk (fallback mode) and
`max_chunks = 0`, the selector returns a chunk from 1 distinct document,
exceeding `min(max_chunks, N) = 0`: the loop appends before checking the
budget. -/
theorem C4_diversity_counterexample :
    chunkScore c4query c4chunk < scoreTenth ∧
    ¬ (((find_most_relevant_chunks [c4chunk] c4query 0).map
          Chunk.filename).toFinset.card ≤
        min 0 (([c4chunk].map Chunk.filename).toFinset.card)) := by
  decide

/-- C4 amended: when every chunk scores below the 0.1 threshold (fallback
mode) and `max_chunks ≥ 1`, the selected chunks come from pairwise-distinct
source documents (so in particular no document contributes a second chunk
before every other has contributed one), and the number of distinct
documents represented is at most `min(max_chunks, N)` where `N` is the
number of distinct documents among the input chunks; for `max_chunks = 0`
the fallback still returns one chunk from one document. -/
theorem C4_fallback_diversity (chunks : List Chunk) (query : Str)
    (maxChunks : Nat) (hne : chunks ≠ []) (hpos : 1 ≤ maxChunks)
    (hfb : ∀ c ∈ chunks, chunkScore query c < scoreTenth) :
    ((find_most_relevant_chunks chunks query maxChunks).map Chunk.filename).Nodup ∧
    ((find_most_relevant_chunks chunks query maxChunks).map
        Chunk.filename).toFinset.card ≤
      min maxChunks ((chunks.map Chunk.filename).toFinset.card) := by
  have htop : topScore (sortedScored chunks query) < scoreTenth := by
    obtain ⟨⟨c, hc, hceq⟩, -⟩ := topScore_is_max chunks query hne
    rw [← hceq]
    exact hfb c hc
  have hnd : ((find_most_relevant_chunks chunks query maxChunks).map
      Chunk.filename).Nodup := by
    rw [find_eq_fallback hne htop]
    exact fallbackLoop_nodup maxChunks _ [] [] (by simp) (by simp)
  refine ⟨hnd, le_min ?_ ?_⟩
  · rw [List.toFinset_card_of_nodup hnd, List.length_map,
      find_eq_fallback hne htop]
    refine fallbackLoop_length_le maxChunks _ [] [] ?_
    simp only [List.length_nil]
    omega
  · apply Finset.card_le_card
    intro f hf
    rw [List.mem_toFinset] at hf ⊢
    obtain ⟨c, hcmem, rfl⟩ := List.mem_map.mp hf
    have hcin : c ∈ chunks := by
      have hsub := find_sublist_of_ne chunks query maxChunks hne
      exact (map_snd_sorted_perm chunks query).subset (hsub.subset hcmem)
    exact List.mem_map_of_mem Chunk.filename hcin

theorem C4_fallback_diversity_witness :
    ([c4chunk] ≠ ([] : List Chunk)) ∧ 1 ≤ 1 ∧
    (∀ c ∈ [c4chunk], chunkScore c4query c < scoreTenth) ∧
    (((find_most_relevant_chunks [c4chunk] c4query 1).map Chunk.filename).Nodup ∧
      ((find_most_relevant_chunks [c4chunk] c4query 1).map
          Chunk.filename).toFinset.card ≤
        min 1 (([c4chunk].map Chunk.filename).toFinset.card)) :=
  ⟨by decide, le_refl 1, by decide,
    C4_fallback_diversity [c4chunk] c4query 1 (by decide) (le_refl 1) (by decide)⟩

/-- C5: for a non-empty chunk list, `topScore` of the sorted scored list is
exactly the highest chunk score, the selector takes the fallback branch
precisely when that highest score is strictly below the fixed threshold 0.1,
and otherwise — in particular when the highest score equals 0.1 exactly —
it returns the first `max_chunks` entries of the score-sorted list. -/
theorem C5_fallback_threshold (chunks : List Chunk) (query : Str)
    (maxChunks : Nat) (hne : chunks ≠ []) :
    (∃ c ∈ chunks, chunkScore query c = topScore (sortedScored chunks query)) ∧
    (∀ c ∈ chunks, chunkScore query c ≤ topScore (sortedScored chunks query)) ∧
    (topScore (sortedScored chunks query) < scoreTenth →
      find_most_relevant_chunks chunks query maxChunks =
        fallbackLoop maxChunks (sortedScored chunks query) [] []) ∧
    (scoreTenth ≤ topScore (sortedScored chunks query) →
      find_most_relevant_chunks chunks query maxChunks =
        ((sortedScored chunks query).take maxChunks).map Prod.snd) := by
  obtain ⟨hex, hmax⟩ := topScore_is_max chunks query hne
  exact ⟨hex, hmax, fun hl => find_eq_fallback hne hl,
    fun hh => find_eq_take hne hh⟩

/-- A chunk of exactly 1000 characters: its length bonus is exactly
`1000 / 10000 = 0.1`, and with a query whose tokens are all filtered out the
total score is exactly the threshold 0.1. -/
def c5chunk : Chunk := ⟨"a".data, List.replicate 1000 'z', 1, 1, 1000⟩

/-- A query whose only word has length 2, so the query token set is empty. -/
def c5query : Str := "qq".data

set_option maxRecDepth 10000 in
theorem C5_fallback_threshold_witness :
    ([c5chunk] ≠ ([] : List Chunk)) ∧
    scoreTenth ≤ topScore (sortedScored [c5chunk] c5query) ∧
    topScore (sortedScored [c5chunk] c5query) ≤ scoreTenth ∧
    find_most_relevant_chunks [c5chunk] c5query 5 =
      ((sortedScored [c5chunk] c5query).take 5).map Prod.snd :=
  ⟨List.cons_ne_nil _ _, by decide, by decide,
    (C5_fallback_threshold [c5chunk] c5query 5
      (List.cons_ne_nil _ _)).2.2.2 (by decide)⟩

/-- C10: in both modes the selector returns a selection of its input: every
returned chunk is an element of the input list, and no chunk occurs more
often in the output than in the input (nothing is fabricated or
duplicated). -/
theorem C10_selection (chunks : List Chunk) (query : Str) (maxChunks : Nat) :
    (∀ c ∈ find_most_relevant_chunks chunks query maxChunks, c ∈ chunks) ∧
    (∀ c : Chunk, (find_most_relevant_chunks chunks query maxChunks).count c ≤
      chunks.count c) := by
  by_cases hne : chunks = []
  · subst hne
    constructor
    · intro c hc
      simp [find_most_relevant_chunks] at hc
    · intro c
      simp [find_most_relevant_chunks]
  · have hsub := find_sublist_of_ne chunks query maxChunks hne
    have hperm := map_snd_sorted_perm chunks query
    constructor
    · intro c hc
      exact hperm.subset (hsub.subset hc)
    · intro c
      calc (find_most_relevant_chunks chunks query maxChunks).count c
          ≤ ((sortedScored chunks query).map Prod.snd).count c :=
            hsub.count_le c
        _ = chunks.count c := hperm.count_eq c

/-- A chunk used in the C10 witness. -/
def c10chunk : Chunk := ⟨"c.txt".data, "hello there".data, 1, 1, 11⟩

/-- The query of the C10 witness. -/
def c10query : Str := "hello".data

theorem C10_selection_witness :
    c10chunk ∈ find_most_relevant_chunks [c10chunk] c10query 5 ∧
    c10chunk ∈ [c10chunk] :=
  ⟨by decide, (C10_selection [c10chunk] c10query 5).1 c10chunk (by decide)⟩
